import Mathlib

/-!
Verification of the captionalchemy audio-timeline and captioning core.

Times are modelled as exact rationals (`ℚ`); the Python source computes with
IEEE doubles, but every algorithmic decision in the claims (comparisons,
max/min, ratios) is arithmetic that is exact on the decimal inputs involved,
so `ℚ` is the faithful shallow embedding.

The source file `tools/audio_analysis/audio_segment_integration.py` is
truncated in the snapshot after the final `append` of
`assign_speakers_to_speech_segment` (its `return` statement and the
`identify_silence_gaps` function that the test suite imports from the same
module are cut off); the return of the accumulated list is modelled from the
function's annotation `-> List[Dict]`, its docstring and the spec, and
`identify_silence_gaps` is modelled from the spec (§4.2).
-/

namespace CaptionAlchemy

/-- `EventType` enum from `audio_segment_integration.py`. -/
inductive EventType where
  | speech
  | music
  | silence
  | other_sound
deriving DecidableEq, Repr

/-- The `AudioEvent` dataclass: start/end times plus optional metadata.
`duration` is the value after `__post_init__` has run (it is `end - start`
when the constructor argument was `None`). -/
structure AudioEvent where
  start : ℚ
  «end» : ℚ
  event_type : EventType
  speaker_id : Option String := none
  confidence : Option ℚ := none
  label : Option String := none
  duration : ℚ
deriving DecidableEq, Repr

/-- `AudioEvent(...)` construction including `__post_init__`: if no duration
is supplied it is derived as `end - start`; then the (possibly derived)
duration is validated with `if self.duration < 0: raise ValueError(...)`. -/
def mkAudioEvent (start «end» : ℚ) (event_type : EventType)
    (speaker_id : Option String) (confidence : Option ℚ) (label : Option String)
    (duration : Option ℚ) : Except String AudioEvent :=
  let d := match duration with
    | none => «end» - start
    | some d => d
  if d < 0 then
    .error "End time must be greater than start time."
  else
    .ok { start := start, «end» := «end», event_type := event_type,
          speaker_id := speaker_id, confidence := confidence, label := label,
          duration := d }

/-- A diarization time range: the `{"start": ..., "end": ...}` dict value of
the diarization map. -/
structure TimeRange where
  start : ℚ
  «end» : ℚ
deriving DecidableEq, Repr

/-- An input speech segment: the `{"start": ..., "end": ...}` dict produced
by VAD (only the keys the function reads). -/
structure SpeechSegment where
  start : ℚ
  «end» : ℚ
deriving DecidableEq, Repr

/-- An output segment of `assign_speakers_to_speech_segment`: the copied
dict with `speaker_id` and `duration` added. -/
structure AssignedSegment where
  start : ℚ
  «end» : ℚ
  speaker_id : Option String
  duration : ℚ
deriving DecidableEq, Repr

/-- `overlap = max(0, min(segment_end, speaker_end) - max(segment_start, speaker_start))`. -/
def overlapWith (segment_start segment_end : ℚ) (r : TimeRange) : ℚ :=
  max 0 (min segment_end r.«end» - max segment_start r.start)

/-- `overlap_ratio = overlap / segment_duration if segment_duration > 0 else 0`. -/
def overlapRatio (segment_start segment_end : ℚ) (r : TimeRange) : ℚ :=
  if segment_end - segment_start > 0 then
    overlapWith segment_start segment_end r / (segment_end - segment_start)
  else 0

/-- A diarization entry is eligible for a segment when its overlap ratio
exceeds 0.5 (the "majority overlap" test of the source). -/
def eligible (segment_start segment_end : ℚ) (p : String × TimeRange) : Prop :=
  overlapRatio segment_start segment_end p.2 > 0.5

instance (segment_start segment_end : ℚ) (p : String × TimeRange) :
    Decidable (eligible segment_start segment_end p) := by
  unfold eligible; infer_instance

/-- One step of the `for speaker_id, time_range in diarization.items()` loop:
the state is `(max_overlap, assigned_speaker)`. -/
def speakerStep (segment_start segment_end : ℚ) (acc : ℚ × Option String)
    (p : String × TimeRange) : ℚ × Option String :=
  let overlap := overlapWith segment_start segment_end p.2
  let overlap_ratio := overlapRatio segment_start segment_end p.2
  if overlap_ratio > 0.5 ∧ overlap > acc.1 then (overlap, some p.1) else acc

/-- The inner loop over the diarization map (insertion-ordered, so modelled
as an association list), starting from `max_overlap = 0.0`,
`assigned_speaker = None`. -/
def speakerLoop (segment_start segment_end : ℚ)
    (diarization : List (String × TimeRange)) : ℚ × Option String :=
  diarization.foldl (speakerStep segment_start segment_end) (0, none)

/-- `assign_speakers_to_speech_segment`: for each segment, run the
diarization loop, then append a copy of the segment extended with
`speaker_id` and `duration`.  The source file is truncated right after the
final `append`; returning the accumulated list is modelled from the
annotation `-> List[Dict]`, the docstring and the spec. -/
def assign_speakers_to_speech_segment (speech_segments : List SpeechSegment)
    (diarization : List (String × TimeRange)) : List AssignedSegment :=
  speech_segments.map fun segment =>
    let segment_start := segment.start
    let segment_end := segment.«end»
    let r := speakerLoop segment_start segment_end diarization
    { start := segment_start, «end» := segment_end,
      speaker_id := r.2, duration := segment_end - segment_start }

example :
    assign_speakers_to_speech_segment
      [⟨0, 5⟩, ⟨10, 15⟩]
      [("SPEAKER_00", ⟨0, 5⟩), ("SPEAKER_01", ⟨10, 15⟩)] =
    [⟨0, 5, some "SPEAKER_00", 5⟩, ⟨10, 15, some "SPEAKER_01", 5⟩] := by
  norm_num [assign_speakers_to_speech_segment, speakerLoop, speakerStep,
    overlapWith, overlapRatio]

example :
    assign_speakers_to_speech_segment [⟨2, 7⟩]
      [("SPEAKER_00", ⟨0, 5⟩), ("SPEAKER_01", ⟨4, 10⟩)] =
    [⟨2, 7, some "SPEAKER_00", 5⟩] := by
  norm_num [assign_speakers_to_speech_segment, speakerLoop, speakerStep,
    overlapWith, overlapRatio]

/-! ### Invariants of the diarization fold -/

lemma speakerStep_eq_of_not_gt (s e : ℚ) (acc : ℚ × Option String)
    (p : String × TimeRange)
    (h : ¬ (eligible s e p ∧ overlapWith s e p.2 > acc.1)) :
    speakerStep s e acc p = acc := by
  unfold speakerStep
  simp only
  rw [if_neg]
  exact fun hc => h ⟨hc.1, hc.2⟩

lemma speakerStep_eq_of_gt (s e : ℚ) (acc : ℚ × Option String)
    (p : String × TimeRange)
    (h : eligible s e p ∧ overlapWith s e p.2 > acc.1) :
    speakerStep s e acc p = (overlapWith s e p.2, some p.1) := by
  unfold speakerStep
  simp only
  rw [if_pos]
  exact ⟨h.1, h.2⟩

lemma speakerStep_fst_le (s e : ℚ) (acc : ℚ × Option String)
    (p : String × TimeRange) : acc.1 ≤ (speakerStep s e acc p).1 := by
  by_cases h : eligible s e p ∧ overlapWith s e p.2 > acc.1
  · rw [speakerStep_eq_of_gt s e acc p h]
    exact le_of_lt h.2
  · rw [speakerStep_eq_of_not_gt s e acc p h]

lemma speakerFold_fst_mono (s e : ℚ) (d : List (String × TimeRange))
    (acc : ℚ × Option String) :
    acc.1 ≤ (d.foldl (speakerStep s e) acc).1 := by
  induction d generalizing acc with
  | nil => simp
  | cons p rest ih =>
    simp only [List.foldl_cons]
    exact le_trans (speakerStep_fst_le s e acc p) (ih (speakerStep s e acc p))

/-- The fold either leaves the accumulator untouched or ends on the overlap
and name of some eligible diarization entry. -/
lemma speakerFold_cases (s e : ℚ) (d : List (String × TimeRange))
    (acc : ℚ × Option String) :
    d.foldl (speakerStep s e) acc = acc ∨
    ∃ p ∈ d, eligible s e p ∧
      d.foldl (speakerStep s e) acc = (overlapWith s e p.2, some p.1) := by
  induction d generalizing acc with
  | nil => left; rfl
  | cons p rest ih =>
    simp only [List.foldl_cons]
    by_cases h : eligible s e p ∧ overlapWith s e p.2 > acc.1
    · rw [speakerStep_eq_of_gt s e acc p h]
      rcases ih (overlapWith s e p.2, some p.1) with h1 | ⟨q, hq, hel, heq⟩
      · exact Or.inr ⟨p, List.mem_cons_self p rest, h.1, h1⟩
      · exact Or.inr ⟨q, List.mem_cons_of_mem p hq, hel, heq⟩
    · rw [speakerStep_eq_of_not_gt s e acc p h]
      rcases ih acc with h1 | ⟨q, hq, hel, heq⟩
      · exact Or.inl h1
      · exact Or.inr ⟨q, List.mem_cons_of_mem p hq, hel, heq⟩

/-- Every eligible entry's overlap is bounded by the final `max_overlap`. -/
lemma speakerFold_ge_eligible (s e : ℚ) (d : List (String × TimeRange))
    (acc : ℚ × Option String) :
    ∀ p ∈ d, eligible s e p →
      overlapWith s e p.2 ≤ (d.foldl (speakerStep s e) acc).1 := by
  induction d generalizing acc with
  | nil => intro p hp; exact absurd hp (List.not_mem_nil p)
  | cons q rest ih =>
    intro p hp hel
    simp only [List.foldl_cons]
    rcases List.mem_cons.mp hp with rfl | hp'
    · by_cases h : eligible s e p ∧ overlapWith s e p.2 > acc.1
      · rw [speakerStep_eq_of_gt s e acc p h]
        exact speakerFold_fst_mono s e rest _
      · rw [speakerStep_eq_of_not_gt s e acc p h]
        have hle : overlapWith s e p.2 ≤ acc.1 := by
          by_contra hgt
          exact h ⟨hel, lt_of_not_le hgt⟩
        exact le_trans hle (speakerFold_fst_mono s e rest acc)
    · exact ih (speakerStep s e acc q) p hp' hel

/-- If no remaining entry beats the accumulated overlap, the fold is the
identity (this is the no-replacement-on-ties fact). -/
lemma speakerFold_preserve (s e : ℚ) (d : List (String × TimeRange))
    (acc : ℚ × Option String)
    (h : ∀ p ∈ d, eligible s e p → overlapWith s e p.2 ≤ acc.1) :
    d.foldl (speakerStep s e) acc = acc := by
  induction d with
  | nil => rfl
  | cons p rest ih =>
    simp only [List.foldl_cons]
    have hstep : speakerStep s e acc p = acc := by
      apply speakerStep_eq_of_not_gt
      rintro ⟨hel, hgt⟩
      exact absurd (h p (List.mem_cons_self p rest) hel) (not_le_of_lt hgt)
    rw [hstep]
    exact ih fun p hp => h p (List.mem_cons_of_mem _ hp)

/-- An eligible entry has strictly positive overlap (and the segment has
strictly positive duration). -/
lemma eligible_pos (s e : ℚ) (p : String × TimeRange)
    (h : eligible s e p) : 0 < e - s ∧ 0 < overlapWith s e p.2 := by
  unfold eligible overlapRatio at h
  by_cases hd : e - s > 0
  · rw [if_pos hd] at h
    refine ⟨hd, ?_⟩
    have h1 : (0.5 : ℚ) * (e - s) < overlapWith s e p.2 :=
      (lt_div_iff₀ hd).mp h
    nlinarith
  · rw [if_neg hd] at h
    norm_num at h

/-- If no entry is eligible, no speaker is assigned. -/
lemma speakerLoop_of_no_eligible (s e : ℚ) (d : List (String × TimeRange))
    (h : ∀ p ∈ d, ¬ eligible s e p) : speakerLoop s e d = (0, none) := by
  unfold speakerLoop
  apply speakerFold_preserve
  intro p hp hel
  exact absurd hel (h p hp)

/-- If some entry is eligible, the loop ends on an eligible entry of maximal
overlap. -/
lemma speakerLoop_of_eligible (s e : ℚ) (d : List (String × TimeRange))
    (h : ∃ p ∈ d, eligible s e p) :
    ∃ p ∈ d, eligible s e p ∧
      speakerLoop s e d = (overlapWith s e p.2, some p.1) ∧
      ∀ q ∈ d, eligible s e q →
        overlapWith s e q.2 ≤ overlapWith s e p.2 := by
  rcases speakerFold_cases s e d (0, none) with h0 | ⟨p, hp, hel, heq⟩
  · exfalso
    rcases h with ⟨p, hp, hel⟩
    have hle := speakerFold_ge_eligible s e d (0, none) p hp hel
    rw [h0] at hle
    exact absurd hle (not_le_of_lt (eligible_pos s e p hel).2)
  · refine ⟨p, hp, hel, heq, fun q hq hq' => ?_⟩
    have hle := speakerFold_ge_eligible s e d (0, none) q hq hq'
    rw [heq] at hle
    exact hle

/-- The length of the output list equals the length of the input list. -/
lemma assign_speakers_length (segs : List SpeechSegment)
    (diar : List (String × TimeRange)) :
    (assign_speakers_to_speech_segment segs diar).length = segs.length :=
  List.length_map _ _

lemma assign_speakers_get (segs : List SpeechSegment)
    (diar : List (String × TimeRange)) (i : ℕ) (hi : i < segs.length) :
    (assign_speakers_to_speech_segment segs diar).get
        ⟨i, by rw [assign_speakers_length]; exact hi⟩ =
      { start := (segs.get ⟨i, hi⟩).start, «end» := (segs.get ⟨i, hi⟩).«end»,
        speaker_id := (speakerLoop (segs.get ⟨i, hi⟩).start
          (segs.get ⟨i, hi⟩).«end» diar).2,
        duration := (segs.get ⟨i, hi⟩).«end» - (segs.get ⟨i, hi⟩).start } := by
  unfold assign_speakers_to_speech_segment
  rw [List.get_map]

/-! ### Claim theorems about the Speaker Assigner -/

/-- C1: `assign_speakers_to_speech_segment` returns exactly one output
segment per input segment, in input order (same length, same start/end at
every index); when some diarization span overlaps more than 50% of the
segment's duration, the output `speaker_id` is an eligible speaker of
greatest overlap; when no span exceeds the 50% ratio, `speaker_id` is
unset. -/
theorem assign_speakers_one_output_per_segment
    (segs : List SpeechSegment) (diar : List (String × TimeRange)) :
    (assign_speakers_to_speech_segment segs diar).length = segs.length ∧
    ∀ i : ℕ, ∀ hi : i < segs.length,
      ((assign_speakers_to_speech_segment segs diar).get
          ⟨i, by rw [assign_speakers_length]; exact hi⟩).start =
        (segs.get ⟨i, hi⟩).start ∧
      ((assign_speakers_to_speech_segment segs diar).get
          ⟨i, by rw [assign_speakers_length]; exact hi⟩).«end» =
        (segs.get ⟨i, hi⟩).«end» ∧
      ((∃ p ∈ diar, eligible (segs.get ⟨i, hi⟩).start (segs.get ⟨i, hi⟩).«end» p) →
        ∃ p ∈ diar, eligible (segs.get ⟨i, hi⟩).start (segs.get ⟨i, hi⟩).«end» p ∧
          ((assign_speakers_to_speech_segment segs diar).get
              ⟨i, by rw [assign_speakers_length]; exact hi⟩).speaker_id = some p.1 ∧
          ∀ q ∈ diar, eligible (segs.get ⟨i, hi⟩).start (segs.get ⟨i, hi⟩).«end» q →
            overlapWith (segs.get ⟨i, hi⟩).start (segs.get ⟨i, hi⟩).«end» q.2 ≤
              overlapWith (segs.get ⟨i, hi⟩).start (segs.get ⟨i, hi⟩).«end» p.2) ∧
      ((∀ p ∈ diar, ¬ eligible (segs.get ⟨i, hi⟩).start (segs.get ⟨i, hi⟩).«end» p) →
        ((assign_speakers_to_speech_segment segs diar).get
            ⟨i, by rw [assign_speakers_length]; exact hi⟩).speaker_id = none) := by
  refine ⟨assign_speakers_length segs diar, fun i hi => ?_⟩
  rw [assign_speakers_get segs diar i hi]
  refine ⟨rfl, rfl, fun hex => ?_, fun hno => ?_⟩
  · obtain ⟨p, hp, hel, heq, hmax⟩ :=
      speakerLoop_of_eligible (segs.get ⟨i, hi⟩).start (segs.get ⟨i, hi⟩).«end» diar hex
    exact ⟨p, hp, hel, by rw [heq], hmax⟩
  · rw [speakerLoop_of_no_eligible _ _ diar hno]

/-- Witness for C1 at a concrete input: one segment fully covered by one
speaker. -/
theorem assign_speakers_one_output_per_segment_witness :
    (assign_speakers_to_speech_segment [⟨0, 5⟩] [("SPEAKER_00", ⟨0, 5⟩)]).length = 1 ∧
    ∃ p ∈ [("SPEAKER_00", (⟨0, 5⟩ : TimeRange))], eligible 0 5 p ∧
      ((assign_speakers_to_speech_segment [⟨0, 5⟩]
          [("SPEAKER_00", ⟨0, 5⟩)]).get ⟨0, by norm_num [assign_speakers_length]⟩).speaker_id =
        some p.1 ∧
      ∀ q ∈ [("SPEAKER_00", (⟨0, 5⟩ : TimeRange))], eligible 0 5 q →
        overlapWith 0 5 q.2 ≤ overlapWith 0 5 p.2 := by
  have h := assign_speakers_one_output_per_segment [⟨0, 5⟩] [("SPEAKER_00", ⟨0, 5⟩)]
  refine ⟨h.1, ?_⟩
  have h2 := (h.2 0 (by norm_num)).2.2.1
  exact h2 ⟨("SPEAKER_00", ⟨0, 5⟩), by simp, by norm_num [eligible, overlapRatio, overlapWith]⟩

/-- C3: on an exact overlap tie among eligible speakers, the speaker whose
key comes earliest in the diarization map's insertion order is assigned
(the fold never replaces the incumbent on equality); in particular for
segment `{2,7}` with `A:[0,5]` and `B:[4,10]` (both 3s overlap, ratio 0.6),
speaker `A` is assigned. -/
theorem assign_speakers_tie_earliest_insertion :
    (∀ (s e : ℚ) (pre : List (String × TimeRange)) (k : String) (r : TimeRange)
        (post : List (String × TimeRange)),
      eligible s e (k, r) →
      (∀ q ∈ pre, eligible s e q → overlapWith s e q.2 < overlapWith s e r) →
      (∀ q ∈ post, eligible s e q → overlapWith s e q.2 ≤ overlapWith s e r) →
      (speakerLoop s e (pre ++ (k, r) :: post)).2 = some k) ∧
    assign_speakers_to_speech_segment [⟨2, 7⟩] [("A", ⟨0, 5⟩), ("B", ⟨4, 10⟩)] =
      [⟨2, 7, some "A", 5⟩] := by
  constructor
  · intro s e pre k r post hel hpre hpost
    unfold speakerLoop
    rw [List.foldl_append, List.foldl_cons]
    have hacc : (pre.foldl (speakerStep s e) (0, none)).1 < overlapWith s e r := by
      rcases speakerFold_cases s e pre (0, none) with h0 | ⟨q, hq, hqel, heq⟩
      · rw [h0]
        exact (eligible_pos s e (k, r) hel).2
      · rw [heq]
        exact hpre q hq hqel
    have hstep : speakerStep s e (pre.foldl (speakerStep s e) (0, none)) (k, r) =
        (overlapWith s e (k, r).2, some (k, r).1) :=
      speakerStep_eq_of_gt s e (pre.foldl (speakerStep s e) (0, none)) (k, r) ⟨hel, hacc⟩
    rw [hstep]
    rw [speakerFold_preserve s e post (overlapWith s e (k, r).2, some (k, r).1)
      (fun q hq hqel => hpost q hq hqel)]
  · norm_num [assign_speakers_to_speech_segment, speakerLoop, speakerStep,
      overlapWith, overlapRatio]

/-- Witness for C3 at the claim's scenario: `A` first, both overlaps 3. -/
theorem assign_speakers_tie_earliest_insertion_witness :
    (speakerLoop 2 7 [("A", ⟨0, 5⟩), ("B", ⟨4, 10⟩)]).2 = some "A" := by
  refine assign_speakers_tie_earliest_insertion.1 2 7 [] "A" ⟨0, 5⟩
    [("B", ⟨4, 10⟩)] ?_ (by simp) ?_
  · norm_num [eligible, overlapRatio, overlapWith]
  · intro q hq _
    simp only [List.mem_singleton] at hq
    subst hq
    norm_num [overlapWith]

/-- C8: for a zero-duration segment the ratio guard
(`... if segment_duration > 0 else 0`) makes every overlap ratio 0, so no
speaker is eligible and the output `speaker_id` stays unset; the division
is never performed on a zero denominator. -/
theorem assign_speakers_zero_duration_guard
    (segs : List SpeechSegment) (diar : List (String × TimeRange))
    (i : ℕ) (hi : i < segs.length)
    (h : (segs.get ⟨i, hi⟩).«end» = (segs.get ⟨i, hi⟩).start) :
    (∀ p ∈ diar,
      overlapRatio (segs.get ⟨i, hi⟩).start (segs.get ⟨i, hi⟩).«end» p.2 = 0) ∧
    ((assign_speakers_to_speech_segment segs diar).get
        ⟨i, by rw [assign_speakers_length]; exact hi⟩).speaker_id = none := by
  have hzero : ∀ p ∈ diar,
      overlapRatio (segs.get ⟨i, hi⟩).start (segs.get ⟨i, hi⟩).«end» p.2 = 0 := by
    intro p _
    unfold overlapRatio
    rw [if_neg]
    rw [h]
    simp
  refine ⟨hzero, ?_⟩
  rw [assign_speakers_get segs diar i hi]
  have hno : ∀ p ∈ diar,
      ¬ eligible (segs.get ⟨i, hi⟩).start (segs.get ⟨i, hi⟩).«end» p := by
    intro p hp hel
    unfold eligible at hel
    rw [hzero p hp] at hel
    norm_num at hel
  rw [speakerLoop_of_no_eligible _ _ diar hno]

/-- Witness for C8 at a concrete input: a zero-duration segment `{3,3}`
inside speaker A's range. -/
theorem assign_speakers_zero_duration_guard_witness :
    (∀ p ∈ [("A", (⟨0, 5⟩ : TimeRange))], overlapRatio 3 3 p.2 = 0) ∧
    ((assign_speakers_to_speech_segment [⟨3, 3⟩] [("A", ⟨0, 5⟩)]).get
        ⟨0, by norm_num [assign_speakers_length]⟩).speaker_id = none := by
  exact assign_speakers_zero_duration_guard [⟨3, 3⟩] [("A", ⟨0, 5⟩)] 0
    (by norm_num) rfl

/-! ### Claim theorems about `AudioEvent` construction -/

/-- C2 (code bug evidence): with no explicit duration, `AudioEvent`
construction at `end = start` SUCCEEDS with duration 0 — the
`__post_init__` check `self.duration < 0` does not reject equality even
though its own error message demands `end > start`; construction does fail
for `end < start` and succeed for `end > start`. -/
theorem audioEvent_accepts_equal_start_end :
    mkAudioEvent 1 1 .speech none none none none =
      .ok { start := 1, «end» := 1, event_type := .speech, duration := 0 } ∧
    mkAudioEvent 2 1 .speech none none none none =
      .error "End time must be greater than start time." ∧
    mkAudioEvent 1 2 .speech none none none none =
      .ok { start := 1, «end» := 2, event_type := .speech, duration := 1 } := by
  refine ⟨?_, ?_, ?_⟩ <;> norm_num [mkAudioEvent]

/-- C9: when an explicit duration is supplied, `__post_init__` validates
only that value: construction fails exactly when the supplied duration is
negative, and `end - start` is never recomputed — even with `end < start`,
any supplied duration `≥ 0` is accepted and stored as-is. -/
theorem audioEvent_explicit_duration_only_checked
    (s e : ℚ) (ty : EventType) (sp : Option String) (conf : Option ℚ)
    (lab : Option String) (d : ℚ) (_h : e < s) :
    (0 ≤ d → mkAudioEvent s e ty sp conf lab (some d) =
      .ok { start := s, «end» := e, event_type := ty, speaker_id := sp,
            confidence := conf, label := lab, duration := d }) ∧
    (d < 0 → mkAudioEvent s e ty sp conf lab (some d) =
      .error "End time must be greater than start time.") := by
  constructor
  · intro hd
    unfold mkAudioEvent
    simp only
    rw [if_neg (not_lt_of_le hd)]
  · intro hd
    unfold mkAudioEvent
    simp only
    rw [if_pos hd]

/-- Witness for C9: `start = 2 > end = 1`, supplied duration 3 accepted and
stored; supplied duration −1 rejected. -/
theorem audioEvent_explicit_duration_only_checked_witness :
    (mkAudioEvent 2 1 .speech none none none (some 3) =
      .ok { start := 2, «end» := 1, event_type := .speech, duration := 3 }) ∧
    (mkAudioEvent 2 1 .speech none none none (some (-1)) =
      .error "End time must be greater than start time.") :=
  ⟨(audioEvent_explicit_duration_only_checked 2 1 .speech none none none 3
      (by norm_num)).1 (by norm_num),
   (audioEvent_explicit_duration_only_checked 2 1 .speech none none none (-1)
      (by norm_num)).2 (by norm_num)⟩

/-! ### Heap model for the frame-effect claim (C7)

Python dicts are mutable objects on a heap.  To state that
`assign_speakers_to_speech_segment` mutates none of its inputs, the
function is re-embedded over an explicit heap: an address is an index into
a list of dicts, `segment.copy()` allocates a fresh dict at the end of the
heap, and the two subscript assignments of the source mutate only that
fresh address.  The input segment list holds addresses of its dicts and
the diarization map holds addresses of its time-range dicts. -/

/-- A Python value stored in the dicts the function touches
(`None` is `pynone`). -/
inductive PyVal where
  | num (q : ℚ)
  | str (s : String)
  | pynone
deriving DecidableEq, Repr

/-- A Python dict over string keys, insertion-ordered. -/
abbrev PyDict := List (String × PyVal)

/-- `d[k]` (first binding of `k`). -/
def dictGet (d : PyDict) (k : String) : Option PyVal :=
  (d.find? (fun p => p.1 == k)).map Prod.snd

/-- `d[k] = v`: overwrite in place when the key exists (keeping its
position, as CPython does), otherwise append the new binding. -/
def dictSet (d : PyDict) (k : String) (v : PyVal) : PyDict :=
  if d.any (fun p => p.1 == k) then
    d.map (fun p => if p.1 == k then (k, v) else p)
  else d ++ [(k, v)]

/-- The heap: address `a` is the dict `h[a]?`. -/
abbrev Heap := List PyDict

/-- `obj[k] = v` on the heap object at address `a`. -/
def heapMutate (h : Heap) (a : ℕ) (k : String) (v : PyVal) : Heap :=
  match h[a]? with
  | some d => h.set a (dictSet d k v)
  | none => h

/-- Read the float stored under key `k` of the dict at address `a`. -/
def readNum (h : Heap) (a : ℕ) (k : String) : Option ℚ := do
  let d ← h[a]?
  match dictGet d k with
  | some (.num q) => some q
  | _ => none

/-- The diarization loop of the heap model: reads the `start`/`end` of each
speaker's time-range dict from the heap (never writing), and feeds them to
the same `speakerStep` as the pure model. -/
def speakerLoopHeap (h : Heap) (segment_start segment_end : ℚ)
    (diarization : List (String × ℕ)) : Option (ℚ × Option String) :=
  diarization.foldlM
    (fun acc p => do
      let speaker_start ← readNum h p.2 "start"
      let speaker_end ← readNum h p.2 "end"
      pure (speakerStep segment_start segment_end acc
        (p.1, ⟨speaker_start, speaker_end⟩)))
    ((0 : ℚ), (none : Option String))

/-- One iteration of the outer loop: read the segment dict, run the
diarization loop, then `segment.copy()` (a fresh allocation) followed by
the two subscript assignments on the fresh address only. -/
def processSegmentHeap (h : Heap) (a : ℕ) (diarization : List (String × ℕ)) :
    Option (Heap × ℕ) := do
  let segment ← h[a]?
  let segment_start ← readNum h a "start"
  let segment_end ← readNum h a "end"
  let r ← speakerLoopHeap h segment_start segment_end diarization
  let na := h.length
  let h1 := h ++ [segment]
  let h2 := heapMutate h1 na "speaker_id"
    (match r.2 with | some sp => .str sp | none => .pynone)
  let h3 := heapMutate h2 na "duration" (.num (segment_end - segment_start))
  pure (h3, na)

/-- One step of the outer loop at the state level: run
`processSegmentHeap` and append the fresh address to
`speech_segments_with_diarization`. -/
def assignStep (diarization : List (String × ℕ)) (st : Heap × List ℕ)
    (a : ℕ) : Option (Heap × List ℕ) :=
  match processSegmentHeap st.1 a diarization with
  | some (h1, na) => some (h1, st.2 ++ [na])
  | none => none

/-- `assign_speakers_to_speech_segment` over the heap: the result is the
final heap together with the addresses of the appended copies. -/
def assignSpeakersHeap (h : Heap) (speech_segments : List ℕ)
    (diarization : List (String × ℕ)) : Option (Heap × List ℕ) :=
  speech_segments.foldlM (assignStep diarization) (h, ([] : List ℕ))

lemma heapMutate_length (h : Heap) (a : ℕ) (k : String) (v : PyVal) :
    (heapMutate h a k v).length = h.length := by
  unfold heapMutate
  cases h[a]? <;> simp

lemma heapMutate_getElem?_ne (h : Heap) (a : ℕ) (k : String) (v : PyVal)
    (x : ℕ) (hx : x ≠ a) : (heapMutate h a k v)[x]? = h[x]? := by
  unfold heapMutate
  cases h[a]? with
  | none => rfl
  | some d => exact List.getElem?_set_ne (fun hax => hx hax.symm)

/-- One outer-loop iteration leaves every pre-existing address unchanged,
grows the heap by one dict, and returns the fresh address. -/
lemma processSegmentHeap_frame (h : Heap) (a : ℕ)
    (diarization : List (String × ℕ)) (h' : Heap) (na : ℕ)
    (hrun : processSegmentHeap h a diarization = some (h', na)) :
    (∀ x, x < h.length → h'[x]? = h[x]?) ∧
    h'.length = h.length + 1 ∧ na = h.length := by
  unfold processSegmentHeap at hrun
  simp only [bind, Option.bind_eq_some, Option.pure_def, Option.some_inj] at hrun
  obtain ⟨segment, hseg, ss, hss, se, hse, r, hr, hpure⟩ := hrun
  rw [Prod.mk.injEq] at hpure
  obtain ⟨rfl, rfl⟩ := hpure
  refine ⟨fun x hx => ?_, ?_, rfl⟩
  · rw [heapMutate_getElem?_ne _ _ _ _ x (Nat.ne_of_lt hx),
      heapMutate_getElem?_ne _ _ _ _ x (Nat.ne_of_lt hx),
      List.getElem?_append_left hx]
  · rw [heapMutate_length, heapMutate_length]
    simp

/-- C7 (frame effect): a successful run of `assignSpeakersHeap` leaves
every address that existed before the call — in particular every input
segment dict and every diarization dict — unchanged on the heap, and every
returned segment lives at a fresh address (it is a copy, not an input
object). -/
theorem assign_speakers_no_mutation (h : Heap) (speech_segments : List ℕ)
    (diarization : List (String × ℕ)) (h' : Heap) (out : List ℕ)
    (hrun : assignSpeakersHeap h speech_segments diarization = some (h', out)) :
    (∀ x, x < h.length → h'[x]? = h[x]?) ∧
    h.length ≤ h'.length ∧
    (∀ b ∈ out, h.length ≤ b) := by
  suffices hgen : ∀ (addrs : List ℕ) (h0 : Heap) (out0 : List ℕ) (h1 : Heap)
      (out1 : List ℕ),
      addrs.foldlM (assignStep diarization) (h0, out0) = some (h1, out1) →
      (∀ x, x < h0.length → h1[x]? = h0[x]?) ∧
      h0.length ≤ h1.length ∧
      (∀ b ∈ out1, b ∈ out0 ∨ h0.length ≤ b) by
    obtain ⟨hframe, hlen, hout⟩ :=
      hgen speech_segments h [] h' out hrun
    refine ⟨hframe, hlen, fun b hb => ?_⟩
    rcases hout b hb with hb0 | hb1
    · exact absurd hb0 (List.not_mem_nil b)
    · exact hb1
  intro addrs
  induction addrs with
  | nil =>
    intro h0 out0 h1 out1 hrun1
    simp only [List.foldlM_nil, pure, Option.some_inj, Prod.mk.injEq] at hrun1
    obtain ⟨rfl, rfl⟩ := hrun1
    exact ⟨fun x _ => rfl, le_refl _, fun b hb => Or.inl hb⟩
  | cons a rest ih =>
    intro h0 out0 h1 out1 hrun1
    rw [List.foldlM_cons] at hrun1
    cases hpr : processSegmentHeap h0 a diarization with
    | none =>
      rw [show assignStep diarization (h0, out0) a = none by
        unfold assignStep; rw [hpr]] at hrun1
      exact absurd hrun1 (by simp [Bind.bind, Option.bind])
    | some pr =>
      obtain ⟨hmid, na⟩ := pr
      have hstep : assignStep diarization (h0, out0) a =
          some (hmid, out0 ++ [na]) := by
        unfold assignStep; rw [hpr]
      rw [hstep] at hrun1
      have hrun2 : rest.foldlM (assignStep diarization) (hmid, out0 ++ [na]) =
          some (h1, out1) := by
        simpa [Bind.bind, Option.bind] using hrun1
      obtain ⟨hframe1, hlen1, _⟩ :=
        processSegmentHeap_frame h0 a diarization hmid na hpr
      obtain ⟨hframe2, hlen2, hout2⟩ := ih hmid (out0 ++ [na]) h1 out1 hrun2
      refine ⟨fun x hx => ?_, ?_, fun b hb => ?_⟩
      · rw [hframe2 x (by omega), hframe1 x hx]
      · omega
      · rcases hout2 b hb with hb0 | hb1
        · rcases List.mem_append.mp hb0 with hb0l | hb0r
          · exact Or.inl hb0l
          · simp only [List.mem_singleton] at hb0r
            omega
        · exact Or.inr (by omega)

/-- Witness for C7: one segment dict and one diarization dict on the heap;
after the call both original addresses still hold their original dicts and
the output address is fresh. -/
theorem assign_speakers_no_mutation_witness :
    (∀ x, x < List.length [[("start", PyVal.num 0), ("end", PyVal.num 5)],
        [("start", PyVal.num 1), ("end", PyVal.num 4)]] →
      [[("start", PyVal.num 0), ("end", PyVal.num 5)],
        [("start", PyVal.num 1), ("end", PyVal.num 4)],
        [("start", PyVal.num 0), ("end", PyVal.num 5),
          ("speaker_id", PyVal.str "A"), ("duration", PyVal.num 5)]][x]? =
      [[("start", PyVal.num 0), ("end", PyVal.num 5)],
        [("start", PyVal.num 1), ("end", PyVal.num 4)]][x]?) ∧
    2 ≤ List.length [[("start", PyVal.num 0), ("end", PyVal.num 5)],
        [("start", PyVal.num 1), ("end", PyVal.num 4)],
        [("start", PyVal.num 0), ("end", PyVal.num 5),
          ("speaker_id", PyVal.str "A"), ("duration", PyVal.num 5)]] ∧
    (∀ b ∈ [2], 2 ≤ b) :=
  assign_speakers_no_mutation
    [[("start", PyVal.num 0), ("end", PyVal.num 5)],
      [("start", PyVal.num 1), ("end", PyVal.num 4)]]
    [0] [("A", 1)] _ [2]
    (by norm_num [assignSpeakersHeap, assignStep, processSegmentHeap, readNum,
      dictGet, dictSet, heapMutate, speakerLoopHeap, speakerStep, overlapWith,
      overlapRatio, List.find?, Bind.bind, Option.bind,
      show ("start" == "start") = true from rfl,
      show ("end" == "end") = true from rfl,
      show ("start" == "end") = false from rfl,
      show ("end" == "start") = false from rfl,
      show ("start" == "speaker_id") = false from rfl,
      show ("end" == "speaker_id") = false from rfl,
      show ("start" == "duration") = false from rfl,
      show ("end" == "duration") = false from rfl,
      show ("speaker_id" == "duration") = false from rfl])

/-! ### SRT caption writer (C10), from `tools/caption_formatter.py` -/

/-- One entry of `SRTCaptionWriter._captions`. -/
structure Caption where
  start : ℚ
  «end» : ℚ
  speaker : String
  text : String
deriving DecidableEq, Repr

/-- `add_caption`: appends one dict with the text stripped and newlines
replaced by spaces (`text.strip().replace("\n", " ")`). -/
def SRTCaptionWriter.add_caption (st : List Caption) (start «end» : ℚ)
    (speaker text : String) : List Caption :=
  st ++ [{ start := start, «end» := «end», speaker := speaker,
           text := (text.trim.replace "\n" " ") }]

/-- `"%02d"` zero-padding. -/
def pad2 (n : ℕ) : String :=
  if n < 10 then "0" ++ toString n else toString n

/-- `"%03d"` zero-padding. -/
def pad3 (n : ℕ) : String :=
  if n < 10 then "00" ++ toString n
  else if n < 100 then "0" ++ toString n
  else toString n

/-- `_format_timestamp`: seconds to `HH:MM:SS,mmm` (for the nonnegative
times the writer receives, Python's `int` truncation coincides with the
floor used here). -/
def SRTCaptionWriter.format_timestamp (seconds : ℚ) : String :=
  let hours : ℤ := ⌊seconds / 3600⌋
  let s1 := seconds - hours * 3600
  let minutes : ℤ := ⌊s1 / 60⌋
  let s2 := s1 - minutes * 60
  let secs : ℤ := ⌊s2⌋
  let millis : ℤ := ⌊(s2 - secs) * 1000⌋
  pad2 hours.toNat ++ ":" ++ pad2 minutes.toNat ++ ":" ++ pad2 secs.toNat ++
    "," ++ pad3 millis.toNat

/-- One numbered block of the emitted `.srt` file: index line, timing line,
`speaker: text` line. -/
structure SRTEntry where
  index : ℕ
  start_ts : String
  end_ts : String
  speaker : String
  text : String
deriving DecidableEq, Repr

/-- `sorted(self._captions, key=lambda c: c["start"])`. -/
def sortCaptions (st : List Caption) : List Caption :=
  st.insertionSort (fun a b => a.start ≤ b.start)

instance : IsTotal Caption (fun a b => a.start ≤ b.start) :=
  ⟨fun a b => le_total a.start b.start⟩

instance : IsTrans Caption (fun a b => a.start ≤ b.start) :=
  ⟨fun _ _ _ => le_trans⟩

/-- `write`, modelled as the list of SRT blocks emitted to the file:
`for idx, cap in enumerate(entries, start=1)` over the sorted captions. -/
def SRTCaptionWriter.write (st : List Caption) : List SRTEntry :=
  (sortCaptions st).enum.map fun p =>
    { index := p.1 + 1,
      start_ts := SRTCaptionWriter.format_timestamp p.2.start,
      end_ts := SRTCaptionWriter.format_timestamp p.2.«end»,
      speaker := p.2.speaker, text := p.2.text }

/-- The caption a call `add_caption(start, end, speaker, text)` stores. -/
def captionOfCall (c : ℚ × ℚ × String × String) : Caption :=
  { start := c.1, «end» := c.2.1, speaker := c.2.2.1,
    text := (c.2.2.2.trim.replace "\n" " ") }

lemma add_caption_foldl (calls : List (ℚ × ℚ × String × String))
    (acc : List Caption) :
    calls.foldl (fun st c =>
        SRTCaptionWriter.add_caption st c.1 c.2.1 c.2.2.1 c.2.2.2) acc =
      acc ++ calls.map captionOfCall := by
  induction calls generalizing acc with
  | nil => simp
  | cons c rest ih =>
    simp only [List.foldl_cons, List.map_cons]
    rw [ih]
    unfold SRTCaptionWriter.add_caption captionOfCall
    simp

lemma enum_map_index_add_one (l : List Caption) (n : ℕ) :
    ((List.enumFrom n l).map fun p => p.1 + 1) = List.range' (n + 1) l.length := by
  induction l generalizing n with
  | nil => rfl
  | cons a rest ih =>
    show (n + 1) :: ((List.enumFrom (n + 1) rest).map fun p => p.1 + 1) =
      (n + 1) :: List.range' (n + 2) rest.length
    rw [ih (n + 1)]

/-- C10: for every sequence of `add_caption` calls, `write` emits exactly
one SRT entry per added caption (a permutation of the accumulated captions
is rendered), ordered by ascending start time regardless of insertion
order, and numbered consecutively starting from 1. -/
theorem srt_write_sorted_numbered (calls : List (ℚ × ℚ × String × String)) :
    calls.foldl (fun st c =>
        SRTCaptionWriter.add_caption st c.1 c.2.1 c.2.2.1 c.2.2.2) [] =
      calls.map captionOfCall ∧
    (SRTCaptionWriter.write (calls.map captionOfCall)).length = calls.length ∧
    ((SRTCaptionWriter.write (calls.map captionOfCall)).map SRTEntry.index) =
      List.range' 1 calls.length ∧
    (sortCaptions (calls.map captionOfCall)).Perm (calls.map captionOfCall) ∧
    List.Sorted (fun a b => a.start ≤ b.start)
      (sortCaptions (calls.map captionOfCall)) := by
  have hperm : (sortCaptions (calls.map captionOfCall)).Perm
      (calls.map captionOfCall) := List.perm_insertionSort _ _
  have hlen : (sortCaptions (calls.map captionOfCall)).length =
      calls.length := by
    rw [hperm.length_eq, List.length_map]
  refine ⟨by simpa using add_caption_foldl calls [], ?_, ?_, hperm, ?_⟩
  · unfold SRTCaptionWriter.write
    rw [List.length_map, List.enum_length, hlen]
  · unfold SRTCaptionWriter.write
    rw [List.map_map]
    have : (SRTEntry.index ∘ fun p : ℕ × Caption =>
        ({ index := p.1 + 1,
           start_ts := SRTCaptionWriter.format_timestamp p.2.start,
           end_ts := SRTCaptionWriter.format_timestamp p.2.«end»,
           speaker := p.2.speaker, text := p.2.text } : SRTEntry)) =
        fun p : ℕ × Caption => p.1 + 1 := rfl
    rw [this, List.enum, enum_map_index_add_one, hlen]
  · exact List.sorted_insertionSort _ _

/-! ### Silence gap synthesis (C4)

`identify_silence_gaps` is imported by the test suite from
`audio_segment_integration` but falls in the truncated tail of that source
file, so it is modelled from the spec (§4.2): merge the speech and
non-speech interval lists, sort by start, walk the sorted union computing
the complement against `[0, total_duration]`, and emit each complementary
gap as a Silence `AudioEvent` only when its duration reaches
`min_silence_duration`. -/

/-- An input interval (a `{"start": ..., "end": ...}` dict). -/
structure Iv where
  start : ℚ
  «end» : ℚ
deriving DecidableEq, Repr

instance : IsTotal Iv (fun a b => a.start ≤ b.start) :=
  ⟨fun a b => le_total a.start b.start⟩

instance : IsTrans Iv (fun a b => a.start ≤ b.start) :=
  ⟨fun _ _ _ => le_trans⟩

/-- Modelled from the spec: the walk over the sorted union.  `cur` is the
furthest covered time so far; the gap up to the next interval's start (and
finally up to `total_duration`) is emitted when it is at least
`min_silence_duration` long. -/
def sweepGaps (total_duration min_silence_duration : ℚ) :
    ℚ → List Iv → List Iv
  | cur, [] =>
      if min_silence_duration ≤ total_duration - cur then
        [⟨cur, total_duration⟩]
      else []
  | cur, iv :: rest =>
      (if min_silence_duration ≤ iv.start - cur then [⟨cur, iv.start⟩] else []) ++
        sweepGaps total_duration min_silence_duration (max cur iv.«end») rest

/-- Modelled from the spec: the complementary gaps of the merged, sorted
speech and non-speech intervals within `[0, total_audio_duration]`. -/
def silenceGapIntervals (speech_segments non_speech_segments : List Iv)
    (total_audio_duration min_silence_duration : ℚ) : List Iv :=
  let merged := speech_segments ++ non_speech_segments
  let sorted := merged.insertionSort (fun a b => a.start ≤ b.start)
  sweepGaps total_audio_duration min_silence_duration 0 sorted

/-- Modelled from the spec: `identify_silence_gaps` returns each retained
gap as a Silence `AudioEvent`. -/
def identify_silence_gaps (speech_segments non_speech_segments : List Iv)
    (total_audio_duration min_silence_duration : ℚ) : List AudioEvent :=
  (silenceGapIntervals speech_segments non_speech_segments
      total_audio_duration min_silence_duration).map fun g =>
    { start := g.start, «end» := g.«end», event_type := .silence,
      duration := g.«end» - g.start }

/-- A time `x` lies inside some interval of `L` (intervals taken half-open). -/
def covered (L : List Iv) (x : ℚ) : Prop :=
  ∃ iv ∈ L, iv.start ≤ x ∧ x < iv.«end»

/-- `g` is a maximal complementary gap of the union of `L` within `[0, T]`:
it sits inside `[0, T]`, no point of it is covered, it cannot be extended
left (its start is 0 or abuts covered points), and it cannot be extended
right (its end is `T` or is covered). -/
def isGap (L : List Iv) (T : ℚ) (g : Iv) : Prop :=
  0 ≤ g.start ∧ g.start < g.«end» ∧ g.«end» ≤ T ∧
  (∀ x, g.start ≤ x → x < g.«end» → ¬ covered L x) ∧
  (g.start = 0 ∨ ∃ iv ∈ L, iv.start < g.start ∧ g.start ≤ iv.«end») ∧
  (g.«end» = T ∨ covered L g.«end»)

/-- The sweep over a sorted suffix `todo` (with `done` already consumed and
`cur` the furthest covered time) emits exactly the maximal complementary
gaps of `L` that start at or after `cur` and last at least `minS`. -/
lemma sweepGaps_mem_iff (L : List Iv) (T minS : ℚ)
    (hwf : ∀ iv ∈ L, 0 ≤ iv.start ∧ iv.start < iv.«end» ∧ iv.«end» ≤ T)
    (hminS : 0 < minS) :
    ∀ (todo done : List Iv) (cur : ℚ),
      (∀ x : Iv, x ∈ L ↔ (x ∈ done ∨ x ∈ todo)) →
      List.Sorted (fun a b => a.start ≤ b.start) todo →
      (∀ iv ∈ done, iv.«end» ≤ cur) →
      (cur = 0 ∨ ∃ iv ∈ done, iv.«end» = cur) →
      0 ≤ cur →
      ∀ g, g ∈ sweepGaps T minS cur todo ↔
        (isGap L T g ∧ minS ≤ g.«end» - g.start ∧ cur ≤ g.start) := by
  intro todo
  induction todo with
  | nil =>
    intro done cur hLmem hsort hdone hzero hpos g
    obtain ⟨gs, ge⟩ := g
    simp only [sweepGaps]
    constructor
    · intro hmem
      by_cases hc : minS ≤ T - cur
      · rw [if_pos hc] at hmem
        obtain ⟨rfl, rfl⟩ : cur = gs ∧ T = ge := by
          have := List.mem_singleton.mp hmem
          exact ⟨(congrArg Iv.start this).symm, (congrArg Iv.«end» this).symm⟩
        refine ⟨⟨hpos, by linarith, le_refl T, ?_, ?_, Or.inl rfl⟩,
          hc, le_refl cur⟩
        · rintro x hx1 hx2 ⟨jv, hjvL, hjle, hjlt⟩
          rcases (hLmem jv).mp hjvL with hjd | hjt
          · have := hdone jv hjd
            linarith
          · exact absurd hjt (List.not_mem_nil jv)
        · rcases hzero with rfl | ⟨jv, hjd, hje⟩
          · exact Or.inl rfl
          · refine Or.inr ⟨jv, (hLmem jv).mpr (Or.inl hjd), ?_, le_of_eq hje.symm⟩
            have := (hwf jv ((hLmem jv).mpr (Or.inl hjd))).2.1
            linarith
      · rw [if_neg hc] at hmem
        exact absurd hmem (List.not_mem_nil _)
    · rintro ⟨⟨hge0, hlt, hleT, hunc, hlmax, hrmax⟩, hdur, hcur⟩
      have hstart : gs = cur := by
        rcases hlmax with h0 | ⟨jv, hjvL, hjlt, hjle⟩
        · simp only at h0
          subst h0
          linarith
        · rcases (hLmem jv).mp hjvL with hjd | hjt
          · have := hdone jv hjd
            simp only at hjle hjlt ⊢
            linarith
          · exact absurd hjt (List.not_mem_nil jv)
      have hend : ge = T := by
        rcases hrmax with h0 | ⟨jv, hjvL, hjle, hjlt⟩
        · exact h0
        · rcases (hLmem jv).mp hjvL with hjd | hjt
          · have := hdone jv hjd
            simp only at hjle hjlt hstart ⊢
            subst hstart
            linarith
          · exact absurd hjt (List.not_mem_nil jv)
      subst hstart
      subst hend
      rw [if_pos hdur]
      exact List.mem_singleton.mpr rfl
  | cons iv rest ih =>
    intro done cur hLmem hsort hdone hzero hpos g
    have hivL : iv ∈ L := (hLmem iv).mpr (Or.inr (List.mem_cons_self iv rest))
    have hivwf := hwf iv hivL
    have hsortrest : List.Sorted (fun a b => a.start ≤ b.start) rest :=
      hsort.of_cons
    have hhead : ∀ b ∈ rest, iv.start ≤ b.start :=
      List.rel_of_sorted_cons hsort
    have hLmem' : ∀ x : Iv, x ∈ L ↔ (x ∈ done ++ [iv] ∨ x ∈ rest) := by
      intro x
      rw [hLmem x]
      simp only [List.mem_append, List.mem_singleton, List.mem_cons]
      tauto
    have hdone' : ∀ jv ∈ done ++ [iv], jv.«end» ≤ max cur iv.«end» := by
      intro jv hjv
      rcases List.mem_append.mp hjv with hjd | hji
      · exact le_trans (hdone jv hjd) (le_max_left _ _)
      · rw [List.mem_singleton.mp hji]
        exact le_max_right _ _
    have hzero' : max cur iv.«end» = 0 ∨
        ∃ jv ∈ done ++ [iv], jv.«end» = max cur iv.«end» := by
      rcases le_total iv.«end» cur with hle | hle
      · rw [max_eq_left hle]
        rcases hzero with h0 | ⟨jv, hjd, hje⟩
        · exact Or.inl h0
        · exact Or.inr ⟨jv, List.mem_append.mpr (Or.inl hjd), hje⟩
      · rw [max_eq_right hle]
        exact Or.inr ⟨iv, List.mem_append.mpr (Or.inr (List.mem_singleton.mpr rfl)),
          rfl⟩
    have hpos' : 0 ≤ max cur iv.«end» := le_trans hpos (le_max_left _ _)
    have ihres := ih (done ++ [iv]) (max cur iv.«end») hLmem' hsortrest
      hdone' hzero' hpos'
    obtain ⟨gs, ge⟩ := g
    simp only [sweepGaps, List.mem_append]
    constructor
    · rintro (hmem1 | hmem2)
      · by_cases hc : minS ≤ iv.start - cur
        · rw [if_pos hc] at hmem1
          obtain ⟨rfl, rfl⟩ : cur = gs ∧ iv.start = ge := by
            have := List.mem_singleton.mp hmem1
            exact ⟨(congrArg Iv.start this).symm, (congrArg Iv.«end» this).symm⟩
          refine ⟨⟨hpos, by linarith, by linarith [hivwf.2.1, hivwf.2.2], ?_, ?_,
            Or.inr ⟨iv, hivL, le_refl iv.start, hivwf.2.1⟩⟩, hc, le_refl cur⟩
          · rintro x hx1 hx2 ⟨jv, hjvL, hjle, hjlt⟩
            rcases (hLmem jv).mp hjvL with hjd | hjt
            · have := hdone jv hjd
              linarith
            · rcases List.mem_cons.mp hjt with rfl | hjr
              · linarith
              · have := hhead jv hjr
                linarith
          · rcases hzero with rfl | ⟨jv, hjd, hje⟩
            · exact Or.inl rfl
            · refine Or.inr ⟨jv, (hLmem jv).mpr (Or.inl hjd), ?_,
                le_of_eq hje.symm⟩
              have := (hwf jv ((hLmem jv).mpr (Or.inl hjd))).2.1
              linarith
        · rw [if_neg hc] at hmem1
          exact absurd hmem1 (List.not_mem_nil _)
      · obtain ⟨hgap, hdur, hcur'⟩ := (ihres ⟨gs, ge⟩).mp hmem2
        exact ⟨hgap, hdur, le_trans (le_max_left _ _) hcur'⟩
    · rintro ⟨⟨hge0, hlt, hleT, hunc, hlmax, hrmax⟩, hdur, hcur⟩
      simp only at hge0 hlt hleT hdur hcur
      by_cases hcase : iv.«end» ≤ gs
      · refine Or.inr ((ihres ⟨gs, ge⟩).mpr
          ⟨⟨hge0, hlt, hleT, hunc, hlmax, hrmax⟩, hdur, max_le hcur hcase⟩)
      · push_neg at hcase
        have hA : ge ≤ iv.start := by
          by_contra hA
          push_neg at hA
          have hx1 : gs ≤ max gs iv.start := le_max_left _ _
          have hx2 : max gs iv.start < ge := max_lt hlt hA
          exact hunc (max gs iv.start) hx1 hx2
            ⟨iv, hivL, le_max_right _ _, max_lt_iff.mpr ⟨hcase, hivwf.2.1⟩⟩
        have hB : gs = cur := by
          rcases hlmax with h0 | ⟨jv, hjvL, hjlt, hjle⟩
          · simp only at h0
            subst h0
            linarith
          · rcases (hLmem jv).mp hjvL with hjd | hjt
            · have := hdone jv hjd
              simp only at hjle hjlt
              linarith
            · exfalso
              rcases List.mem_cons.mp hjt with rfl | hjr
              · simp only at hjle hjlt
                linarith
              · have := hhead jv hjr
                simp only at hjle hjlt
                linarith
        have hC : ge = iv.start := by
          rcases hrmax with h0 | ⟨jv, hjvL, hjle, hjlt⟩
          · exfalso
            have h1 := hivwf.2.1
            have h2 := hivwf.2.2
            subst h0
            linarith
          · rcases (hLmem jv).mp hjvL with hjd | hjt
            · exfalso
              have := hdone jv hjd
              simp only at hjle hjlt
              linarith
            · rcases List.mem_cons.mp hjt with rfl | hjr
              · simp only at hjle hjlt
                linarith
              · have := hhead jv hjr
                simp only at hjle hjlt
                linarith
        subst hB
        subst hC
        left
        rw [if_pos hdur]
        exact List.mem_singleton.mpr rfl

/-- C4: with well-formed inputs (each interval inside `[0, T]` with positive
length) and a positive silence threshold, `identify_silence_gaps` emits a
Silence event exactly for every maximal complementary gap of the union of
speech and non-speech intervals within `[0, total_duration]` whose duration
reaches `min_silence_duration` (shorter gaps are discarded) — including the
gap before the first covered interval and after the last; in particular for
speech `[{0,5}]`, non-speech `[]`, total 10, threshold 0.5, exactly the one
Silence event `{5,10}` is returned. -/
theorem identify_silence_gaps_complement
    (speech_segments non_speech_segments : List Iv) (T minS : ℚ)
    (hwf : ∀ iv ∈ speech_segments ++ non_speech_segments,
      0 ≤ iv.start ∧ iv.start < iv.«end» ∧ iv.«end» ≤ T)
    (hminS : 0 < minS) :
    (∀ g, g ∈ silenceGapIntervals speech_segments non_speech_segments T minS ↔
      (isGap (speech_segments ++ non_speech_segments) T g ∧
        minS ≤ g.«end» - g.start)) ∧
    identify_silence_gaps [⟨0, 5⟩] [] 10 0.5 =
      [{ start := 5, «end» := 10, event_type := .silence, duration := 5 }] := by
  constructor
  · intro g
    unfold silenceGapIntervals
    have hperm := List.perm_insertionSort (fun a b : Iv => a.start ≤ b.start)
      (speech_segments ++ non_speech_segments)
    have hiff := sweepGaps_mem_iff (speech_segments ++ non_speech_segments)
      T minS hwf hminS
      ((speech_segments ++ non_speech_segments).insertionSort
        (fun a b => a.start ≤ b.start)) [] 0
      (fun x => by simpa using (hperm.mem_iff (a := x)).symm)
      (List.sorted_insertionSort _ _)
      (fun iv hiv => absurd hiv (List.not_mem_nil iv))
      (Or.inl rfl) (le_refl 0)
    rw [hiff g]
    constructor
    · rintro ⟨hgap, hdur, _⟩
      exact ⟨hgap, hdur⟩
    · rintro ⟨hgap, hdur⟩
      exact ⟨hgap, hdur, hgap.1⟩
  · norm_num [identify_silence_gaps, silenceGapIntervals, sweepGaps,
      List.insertionSort, List.orderedInsert]

/-- Witness for C4 at the claim's scenario: the emitted `{5,10}` really is a
maximal complementary gap of duration above the threshold. -/
theorem identify_silence_gaps_complement_witness :
    isGap ([⟨0, 5⟩] ++ ([] : List Iv)) 10 ⟨5, 10⟩ ∧ (0.5 : ℚ) ≤ 10 - 5 :=
  ((identify_silence_gaps_complement [⟨0, 5⟩] [] 10 0.5
      (by
        intro iv hiv
        have hiv' : iv = ⟨0, 5⟩ := by simpa using hiv
        subst hiv'
        norm_num)
      (by norm_num)).1 ⟨5, 10⟩).mp
    (by norm_num [silenceGapIntervals, sweepGaps, List.insertionSort,
      List.orderedInsert])

/-! ### Transcript timestamp parser (C5)

`tools/captioning/transcriber.py` is not in the src snapshot (only its
tests are), so `_parse_timestamps` is modelled from the spec (§4.4): the
canonical pattern is `H:MM:SS.mmm` or `HH:MM:SS.mmm`; minutes and seconds
must lie in `[0, 60)`; the value is `hours*3600 + minutes*60 + seconds`
seconds; any other shape is rejected. -/

/-- The numeric value of a digit character (`None` for non-digits). -/
def charDigit (c : Char) : Option ℕ :=
  if 48 ≤ c.toNat ∧ c.toNat ≤ 57 then some (c.toNat - 48) else none

/-- Parse exactly three digits as milliseconds. -/
def parseFrac3 : List Char → Option ℚ
  | [a, b, c] =>
    (charDigit a).bind fun x =>
      (charDigit b).bind fun y =>
        (charDigit c).bind fun z =>
          some (((100 * x + 10 * y + z : ℕ) : ℚ) / 1000)
  | _ => none

/-- Parse `SS.mmm` with `SS < 60`. -/
def parseSecs : List Char → Option ℚ
  | a :: b :: c :: rest =>
    (charDigit a).bind fun x =>
      (charDigit b).bind fun y =>
        if c = '.' ∧ 10 * x + y < 60 then
          (parseFrac3 rest).map fun f => ((10 * x + y : ℕ) : ℚ) + f
        else none
  | _ => none

/-- Parse `MM:SS.mmm` with `MM < 60`, the hours having been read already. -/
def parseMinSecs (hours : ℕ) : List Char → Option ℚ
  | a :: b :: c :: rest =>
    (charDigit a).bind fun x =>
      (charDigit b).bind fun y =>
        if c = ':' ∧ 10 * x + y < 60 then
          (parseSecs rest).map fun s =>
            (hours : ℚ) * 3600 + ((10 * x + y : ℕ) : ℚ) * 60 + s
        else none
  | _ => none

/-- The timestamp pattern over characters: one or two hour digits, then
`:MM:SS.mmm`. -/
def parseTimestampChars : List Char → Option ℚ
  | c1 :: c2 :: rest =>
    (charDigit c1).bind fun d1 =>
      if c2 = ':' then parseMinSecs d1 rest
      else
        (charDigit c2).bind fun d0 =>
          match rest with
          | c3 :: rest2 =>
            if c3 = ':' then parseMinSecs (10 * d1 + d0) rest2 else none
          | [] => none
  | _ => none

/-- Modelled from the spec: `Transcriber._parse_timestamps`. -/
def parse_timestamp (text : String) : Option ℚ :=
  parseTimestampChars text.toList

/-- The digit character of `d`. -/
def digitChar10 (d : Fin 10) : Char := Char.ofNat (48 + d.val)

lemma charDigit_digitChar10 : ∀ d : Fin 10,
    charDigit (digitChar10 d) = some d.val := by decide

lemma digitChar10_ne_colon : ∀ d : Fin 10, ¬ digitChar10 d = ':' := by decide

/-- The canonical `H:MM:SS.mmm` character rendering. -/
def tsChars1 (h0 m1 m0 s1 s0 f1 f2 f3 : Fin 10) : List Char :=
  [digitChar10 h0, ':', digitChar10 m1, digitChar10 m0, ':',
   digitChar10 s1, digitChar10 s0, '.', digitChar10 f1, digitChar10 f2,
   digitChar10 f3]

/-- The canonical `HH:MM:SS.mmm` character rendering. -/
def tsChars2 (h1 h0 m1 m0 s1 s0 f1 f2 f3 : Fin 10) : List Char :=
  [digitChar10 h1, digitChar10 h0, ':', digitChar10 m1, digitChar10 m0, ':',
   digitChar10 s1, digitChar10 s0, '.', digitChar10 f1, digitChar10 f2,
   digitChar10 f3]

lemma parseSecs_eval (s1 s0 f1 f2 f3 : Fin 10) (hs : s1.val ≤ 5) :
    parseSecs [digitChar10 s1, digitChar10 s0, '.', digitChar10 f1,
        digitChar10 f2, digitChar10 f3] =
      some (((10 * s1.val + s0.val : ℕ) : ℚ) +
        ((100 * f1.val + 10 * f2.val + f3.val : ℕ) : ℚ) / 1000) := by
  have h60 : 10 * s1.val + s0.val < 60 := by omega
  simp [parseSecs, parseFrac3, charDigit_digitChar10, h60]

lemma parseMinSecs_eval (hours : ℕ) (m1 m0 s1 s0 f1 f2 f3 : Fin 10)
    (hm : m1.val ≤ 5) (hs : s1.val ≤ 5) :
    parseMinSecs hours [digitChar10 m1, digitChar10 m0, ':', digitChar10 s1,
        digitChar10 s0, '.', digitChar10 f1, digitChar10 f2, digitChar10 f3] =
      some ((hours : ℚ) * 3600 + ((10 * m1.val + m0.val : ℕ) : ℚ) * 60 +
        (((10 * s1.val + s0.val : ℕ) : ℚ) +
          ((100 * f1.val + 10 * f2.val + f3.val : ℕ) : ℚ) / 1000)) := by
  have h60 : 10 * m1.val + m0.val < 60 := by omega
  simp [parseMinSecs, charDigit_digitChar10, h60,
    parseSecs_eval s1 s0 f1 f2 f3 hs]

lemma charDigit_eq_some_inv (c : Char) (n : ℕ) (h : charDigit c = some n) :
    ∃ d : Fin 10, n = d.val ∧ c = digitChar10 d := by
  unfold charDigit at h
  split at h
  · next hc =>
    obtain ⟨h1, h2⟩ := hc
    obtain rfl : c.toNat - 48 = n := Option.some_inj.mp h
    refine ⟨⟨c.toNat - 48, by omega⟩, rfl, ?_⟩
    unfold digitChar10
    simp only
    rw [show 48 + (c.toNat - 48) = c.toNat by omega, Char.ofNat_toNat]
  · exact absurd h (by simp)

lemma parseFrac3_inv (l : List Char) (v : ℚ) (h : parseFrac3 l = some v) :
    ∃ f1 f2 f3 : Fin 10,
      l = [digitChar10 f1, digitChar10 f2, digitChar10 f3] := by
  rcases l with _ | ⟨a, _ | ⟨b, _ | ⟨c, _ | ⟨d, l⟩⟩⟩⟩ <;>
    simp only [parseFrac3] at h
  · exact absurd h (by simp)
  · exact absurd h (by simp)
  · exact absurd h (by simp)
  · cases ha : charDigit a with
    | none => rw [ha] at h; exact absurd h (by simp)
    | some x =>
      cases hb : charDigit b with
      | none => rw [ha, hb] at h; exact absurd h (by simp)
      | some y =>
        cases hc : charDigit c with
        | none => rw [ha, hb, hc] at h; exact absurd h (by simp)
        | some z =>
          obtain ⟨f1, rfl, rfl⟩ := charDigit_eq_some_inv a x ha
          obtain ⟨f2, rfl, rfl⟩ := charDigit_eq_some_inv b y hb
          obtain ⟨f3, rfl, rfl⟩ := charDigit_eq_some_inv c z hc
          exact ⟨f1, f2, f3, rfl⟩
  · exact absurd h (by simp)

lemma parseSecs_inv (l : List Char) (v : ℚ) (h : parseSecs l = some v) :
    ∃ s1 s0 f1 f2 f3 : Fin 10,
      l = [digitChar10 s1, digitChar10 s0, '.', digitChar10 f1,
        digitChar10 f2, digitChar10 f3] ∧ s1.val ≤ 5 := by
  rcases l with _ | ⟨a, _ | ⟨b, _ | ⟨c, rest⟩⟩⟩ <;> simp only [parseSecs] at h
  · exact absurd h (by simp)
  · exact absurd h (by simp)
  · exact absurd h (by simp)
  · cases ha : charDigit a with
    | none => rw [ha] at h; exact absurd h (by simp)
    | some x =>
      cases hb : charDigit b with
      | none => rw [ha, hb] at h; exact absurd h (by simp)
      | some y =>
        rw [ha, hb] at h
        simp only [Option.some_bind] at h
        by_cases hcond : c = '.' ∧ 10 * x + y < 60
        · rw [if_pos hcond] at h
          cases hf : parseFrac3 rest with
          | none => rw [hf] at h; exact absurd h (by simp)
          | some f =>
            obtain ⟨f1, f2, f3, rfl⟩ := parseFrac3_inv rest f hf
            obtain ⟨s1, rfl, rfl⟩ := charDigit_eq_some_inv a x ha
            obtain ⟨s0, rfl, rfl⟩ := charDigit_eq_some_inv b y hb
            obtain ⟨rfl, h60⟩ := hcond
            exact ⟨s1, s0, f1, f2, f3, rfl, by omega⟩
        · rw [if_neg hcond] at h
          exact absurd h (by simp)

lemma parseMinSecs_inv (hours : ℕ) (l : List Char) (v : ℚ)
    (h : parseMinSecs hours l = some v) :
    ∃ m1 m0 s1 s0 f1 f2 f3 : Fin 10,
      l = [digitChar10 m1, digitChar10 m0, ':', digitChar10 s1,
        digitChar10 s0, '.', digitChar10 f1, digitChar10 f2, digitChar10 f3] ∧
      m1.val ≤ 5 ∧ s1.val ≤ 5 := by
  rcases l with _ | ⟨a, _ | ⟨b, _ | ⟨c, rest⟩⟩⟩ <;>
    simp only [parseMinSecs] at h
  · exact absurd h (by simp)
  · exact absurd h (by simp)
  · exact absurd h (by simp)
  · cases ha : charDigit a with
    | none => rw [ha] at h; exact absurd h (by simp)
    | some x =>
      cases hb : charDigit b with
      | none => rw [ha, hb] at h; exact absurd h (by simp)
      | some y =>
        rw [ha, hb] at h
        simp only [Option.some_bind] at h
        by_cases hcond : c = ':' ∧ 10 * x + y < 60
        · rw [if_pos hcond] at h
          cases hsec : parseSecs rest with
          | none => rw [hsec] at h; exact absurd h (by simp)
          | some sv =>
            obtain ⟨s1, s0, f1, f2, f3, rfl, hs5⟩ := parseSecs_inv rest sv hsec
            obtain ⟨m1, rfl, rfl⟩ := charDigit_eq_some_inv a x ha
            obtain ⟨m0, rfl, rfl⟩ := charDigit_eq_some_inv b y hb
            obtain ⟨rfl, h60⟩ := hcond
            exact ⟨m1, m0, s1, s0, f1, f2, f3, rfl, by omega, hs5⟩
        · rw [if_neg hcond] at h
          exact absurd h (by simp)

lemma parseTimestampChars_inv (l : List Char) (v : ℚ)
    (h : parseTimestampChars l = some v) :
    ∃ h1 h0 m1 m0 s1 s0 f1 f2 f3 : Fin 10,
      (l = tsChars1 h0 m1 m0 s1 s0 f1 f2 f3 ∨
       l = tsChars2 h1 h0 m1 m0 s1 s0 f1 f2 f3) ∧
      m1.val ≤ 5 ∧ s1.val ≤ 5 := by
  rcases l with _ | ⟨c1, _ | ⟨c2, rest⟩⟩ <;>
    simp only [parseTimestampChars] at h
  · exact absurd h (by simp)
  · exact absurd h (by simp)
  · cases hd1 : charDigit c1 with
    | none => rw [hd1] at h; exact absurd h (by simp)
    | some d1 =>
      rw [hd1] at h
      simp only [Option.some_bind] at h
      by_cases hc2 : c2 = ':'
      · rw [if_pos hc2] at h
        obtain ⟨m1, m0, s1, s0, f1, f2, f3, rfl, hm5, hs5⟩ :=
          parseMinSecs_inv d1 rest v h
        obtain ⟨hd, rfl, rfl⟩ := charDigit_eq_some_inv c1 d1 hd1
        subst hc2
        exact ⟨0, hd, m1, m0, s1, s0, f1, f2, f3, Or.inl rfl, hm5, hs5⟩
      · rw [if_neg hc2] at h
        cases hd0 : charDigit c2 with
        | none => rw [hd0] at h; exact absurd h (by simp)
        | some d0 =>
          rw [hd0] at h
          simp only [Option.some_bind] at h
          rcases rest with _ | ⟨c3, rest2⟩
          · exact absurd h (by simp)
          · have h2 : (if c3 = ':' then parseMinSecs (10 * d1 + d0) rest2
                else none) = some v := h
            by_cases hc3 : c3 = ':'
            · rw [if_pos hc3] at h2
              obtain ⟨m1, m0, s1, s0, f1, f2, f3, rfl, hm5, hs5⟩ :=
                parseMinSecs_inv (10 * d1 + d0) rest2 v h2
              obtain ⟨hu, rfl, rfl⟩ := charDigit_eq_some_inv c1 d1 hd1
              obtain ⟨hl, rfl, rfl⟩ := charDigit_eq_some_inv c2 d0 hd0
              subst hc3
              exact ⟨hu, hl, m1, m0, s1, s0, f1, f2, f3, Or.inr rfl, hm5, hs5⟩
            · rw [if_neg hc3] at h2
              exact absurd h2 (by simp)

/-- C5: the timestamp parser maps every canonical `H:MM:SS.mmm` or
`HH:MM:SS.mmm` string (minutes and seconds in `[0,60)`) to
`hours*3600 + minutes*60 + seconds` seconds — so `"00:01:23.456"` parses to
`83.456` — and fails on out-of-range minutes or seconds and on every string
not of the canonical shape — so `"99:99:99"` fails; conversely every
accepted string has the canonical shape. -/
theorem parse_timestamp_spec :
    parse_timestamp "00:01:23.456" = some (83.456 : ℚ) ∧
    parse_timestamp "99:99:99" = none ∧
    (∀ h1 h0 m1 m0 s1 s0 f1 f2 f3 : Fin 10, m1.val ≤ 5 → s1.val ≤ 5 →
      parse_timestamp (String.mk (tsChars2 h1 h0 m1 m0 s1 s0 f1 f2 f3)) =
        some (((10 * h1.val + h0.val : ℕ) : ℚ) * 3600 +
          ((10 * m1.val + m0.val : ℕ) : ℚ) * 60 +
          (((10 * s1.val + s0.val : ℕ) : ℚ) +
            ((100 * f1.val + 10 * f2.val + f3.val : ℕ) : ℚ) / 1000)) ∧
      parse_timestamp (String.mk (tsChars1 h0 m1 m0 s1 s0 f1 f2 f3)) =
        some ((h0.val : ℚ) * 3600 +
          ((10 * m1.val + m0.val : ℕ) : ℚ) * 60 +
          (((10 * s1.val + s0.val : ℕ) : ℚ) +
            ((100 * f1.val + 10 * f2.val + f3.val : ℕ) : ℚ) / 1000))) ∧
    (∀ h1 h0 m1 m0 s1 s0 f1 f2 f3 : Fin 10, 6 ≤ m1.val →
      parse_timestamp (String.mk (tsChars2 h1 h0 m1 m0 s1 s0 f1 f2 f3)) =
        none) ∧
    (∀ h1 h0 m1 m0 s1 s0 f1 f2 f3 : Fin 10, m1.val ≤ 5 → 6 ≤ s1.val →
      parse_timestamp (String.mk (tsChars2 h1 h0 m1 m0 s1 s0 f1 f2 f3)) =
        none) ∧
    (∀ (s : String) (v : ℚ), parse_timestamp s = some v →
      ∃ h1 h0 m1 m0 s1 s0 f1 f2 f3 : Fin 10,
        (s.toList = tsChars1 h0 m1 m0 s1 s0 f1 f2 f3 ∨
         s.toList = tsChars2 h1 h0 m1 m0 s1 s0 f1 f2 f3) ∧
        m1.val ≤ 5 ∧ s1.val ≤ 5) := by
  have hmain : ∀ h1 h0 m1 m0 s1 s0 f1 f2 f3 : Fin 10,
      m1.val ≤ 5 → s1.val ≤ 5 →
      parse_timestamp (String.mk (tsChars2 h1 h0 m1 m0 s1 s0 f1 f2 f3)) =
        some (((10 * h1.val + h0.val : ℕ) : ℚ) * 3600 +
          ((10 * m1.val + m0.val : ℕ) : ℚ) * 60 +
          (((10 * s1.val + s0.val : ℕ) : ℚ) +
            ((100 * f1.val + 10 * f2.val + f3.val : ℕ) : ℚ) / 1000)) ∧
      parse_timestamp (String.mk (tsChars1 h0 m1 m0 s1 s0 f1 f2 f3)) =
        some ((h0.val : ℚ) * 3600 +
          ((10 * m1.val + m0.val : ℕ) : ℚ) * 60 +
          (((10 * s1.val + s0.val : ℕ) : ℚ) +
            ((100 * f1.val + 10 * f2.val + f3.val : ℕ) : ℚ) / 1000)) := by
    intro h1 h0 m1 m0 s1 s0 f1 f2 f3 hm hs
    constructor
    · show parseTimestampChars (tsChars2 h1 h0 m1 m0 s1 s0 f1 f2 f3) = _
      simp only [tsChars2, parseTimestampChars, charDigit_digitChar10,
        Option.some_bind]
      rw [if_neg (digitChar10_ne_colon h0), if_pos trivial]
      exact parseMinSecs_eval (10 * h1.val + h0.val) m1 m0 s1 s0 f1 f2 f3 hm hs
    · show parseTimestampChars (tsChars1 h0 m1 m0 s1 s0 f1 f2 f3) = _
      simp only [tsChars1, parseTimestampChars, charDigit_digitChar10,
        Option.some_bind]
      rw [if_pos trivial]
      exact parseMinSecs_eval h0.val m1 m0 s1 s0 f1 f2 f3 hm hs
  refine ⟨?_, ?_, hmain, ?_, ?_, ?_⟩
  · have hstr : "00:01:23.456" = String.mk (tsChars2 0 0 0 1 2 3 4 5 6) := by
      decide
    rw [hstr, (hmain 0 0 0 1 2 3 4 5 6 (by decide) (by decide)).1]
    norm_num [show ((0 : Fin 10) : ℕ) = 0 from rfl,
      show ((1 : Fin 10) : ℕ) = 1 from rfl,
      show ((2 : Fin 10) : ℕ) = 2 from rfl,
      show ((3 : Fin 10) : ℕ) = 3 from rfl,
      show ((4 : Fin 10) : ℕ) = 4 from rfl,
      show ((5 : Fin 10) : ℕ) = 5 from rfl,
      show ((6 : Fin 10) : ℕ) = 6 from rfl]
  · rfl
  · intro h1 h0 m1 m0 s1 s0 f1 f2 f3 hm
    have h60 : ¬ (10 * m1.val + m0.val < 60) := by omega
    show parseTimestampChars (tsChars2 h1 h0 m1 m0 s1 s0 f1 f2 f3) = none
    simp only [tsChars2, parseTimestampChars, charDigit_digitChar10,
      Option.some_bind]
    rw [if_neg (digitChar10_ne_colon h0), if_pos trivial]
    simp [parseMinSecs, charDigit_digitChar10, h60]
  · intro h1 h0 m1 m0 s1 s0 f1 f2 f3 hm hs
    have hm60 : 10 * m1.val + m0.val < 60 := by omega
    have hs60 : ¬ (10 * s1.val + s0.val < 60) := by omega
    show parseTimestampChars (tsChars2 h1 h0 m1 m0 s1 s0 f1 f2 f3) = none
    simp only [tsChars2, parseTimestampChars, charDigit_digitChar10,
      Option.some_bind]
    rw [if_neg (digitChar10_ne_colon h0), if_pos trivial]
    simp [parseMinSecs, parseSecs, charDigit_digitChar10, hm60, hs60]
  · intro s v h
    exact parseTimestampChars_inv s.toList v h

/-- Witness for C5: the canonical rendering of 00:01:23.456 parses to its
value, and with minutes 60 (digits 6,0) parsing fails. -/
theorem parse_timestamp_spec_witness :
    parse_timestamp (String.mk (tsChars2 0 0 0 1 2 3 4 5 6)) =
      some (((10 * (0 : Fin 10).val + (0 : Fin 10).val : ℕ) : ℚ) * 3600 +
        ((10 * (0 : Fin 10).val + (1 : Fin 10).val : ℕ) : ℚ) * 60 +
        (((10 * (2 : Fin 10).val + (3 : Fin 10).val : ℕ) : ℚ) +
          ((100 * (4 : Fin 10).val + 10 * (5 : Fin 10).val +
            (6 : Fin 10).val : ℕ) : ℚ) / 1000)) ∧
    parse_timestamp (String.mk (tsChars2 9 9 6 0 0 0 0 0 0)) = none :=
  ⟨(parse_timestamp_spec.2.2.1 0 0 0 1 2 3 4 5 6 (by decide) (by decide)).1,
   parse_timestamp_spec.2.2.2.1 9 9 6 0 0 0 0 0 0 (by decide)⟩

/-! ### Subtitle segmentation engine (C6)

`tools/captioning/timing_analyzer.py` is not in the src snapshot (only its
tests and callers are), so the engine is modelled from the spec (§4.5):
a greedy forward scan accumulating words, evaluating after each word, in
order: (1) duration ≥ max → close `DurationLimit`; (2) sentence-ending word
and duration ≥ min → close `SentenceEnd`; (3) adding the next word would
push the projected reading speed above the maximum and duration ≥ min →
close `ReadingSpeedLimit`; (4) gap to the next word beyond the configured
natural-pause threshold and duration ≥ min → close `NaturalPause`;
otherwise keep accumulating; at end of input the remainder is flushed as
`EndOfInput`. -/

/-- A word-level timed token (spec §3). -/
structure WordTiming where
  word : String
  start : ℚ
  «end» : ℚ
  is_punctuation : Bool := false
  is_sentence_ending : Bool := false
  is_subword : Bool := false
deriving DecidableEq, Repr

/-- The segmentation configuration (spec §4.5). -/
structure SegConfig where
  max_segment_duration : ℚ
  min_segment_duration : ℚ
  max_reading_speed_cps : ℚ
  min_reading_speed_cps : ℚ
  natural_pause_threshold : ℚ
deriving DecidableEq, Repr

/-- The constraint that closed a segment (spec §3). -/
inductive BreakReason where
  | sentence_end
  | duration_limit
  | reading_speed_limit
  | natural_pause
  | end_of_input
deriving DecidableEq, Repr

/-- Duration of an accumulated group: last end minus first start. -/
def groupDuration : List WordTiming → ℚ
  | [] => 0
  | w :: ws => ((w :: ws).getLast (List.cons_ne_nil w ws)).«end» - w.start

/-- Rendered text: words joined with single spaces, punctuation attached
without a preceding space (spec §4.5). -/
def renderText (ws : List WordTiming) : String :=
  ws.foldl (fun acc w =>
    if acc = "" then w.word
    else if w.is_punctuation then acc ++ w.word
    else acc ++ " " ++ w.word) ""

/-- Projected characters-per-second if `next` were appended to `ws`. -/
def projectedSpeed (ws : List WordTiming) (next : WordTiming) : ℚ :=
  match ws with
  | [] => 0
  | w :: _ => ((renderText (ws ++ [next])).length : ℚ) / (next.«end» - w.start)

/-- Modelled from the spec: the greedy scan.  First argument: remaining
words; second: the words accumulated into the open segment. -/
def analyzeAux (cfg : SegConfig) : List WordTiming → List WordTiming →
    List (List WordTiming × BreakReason)
  | [], acc => if acc.isEmpty then [] else [(acc, .end_of_input)]
  | w :: rest, acc =>
    let acc2 := acc ++ [w]
    let dur := groupDuration acc2
    if cfg.max_segment_duration ≤ dur then
      (acc2, .duration_limit) :: analyzeAux cfg rest []
    else if w.is_sentence_ending = true ∧ cfg.min_segment_duration ≤ dur then
      (acc2, .sentence_end) :: analyzeAux cfg rest []
    else
      match rest with
      | next :: _ =>
        if cfg.max_reading_speed_cps < projectedSpeed acc2 next ∧
            cfg.min_segment_duration ≤ dur then
          (acc2, .reading_speed_limit) :: analyzeAux cfg rest []
        else if cfg.natural_pause_threshold < next.start - w.«end» ∧
            cfg.min_segment_duration ≤ dur then
          (acc2, .natural_pause) :: analyzeAux cfg rest []
        else analyzeAux cfg rest acc2
      | [] => analyzeAux cfg rest acc2

/-- Modelled from the spec: group the word sequence into segments. -/
def analyze_words (cfg : SegConfig) (words : List WordTiming) :
    List (List WordTiming × BreakReason) :=
  analyzeAux cfg words []

/-- A subtitle cue (spec §3). -/
structure SubtitleSegment where
  start : ℚ
  «end» : ℚ
  text : String
  word_count : ℕ
  char_count : ℕ
  reading_speed_cps : ℚ
  break_reason : BreakReason
deriving DecidableEq, Repr

/-- Build the cue of one closed group. -/
def mkSubtitleSegment (g : List WordTiming × BreakReason) : SubtitleSegment :=
  match g.1 with
  | [] => { start := 0, «end» := 0, text := "", word_count := 0,
            char_count := 0, reading_speed_cps := 0, break_reason := g.2 }
  | w :: ws =>
    let txt := renderText (w :: ws)
    let e := ((w :: ws).getLast (List.cons_ne_nil w ws)).«end»
    { start := w.start, «end» := e, text := txt,
      word_count := (w :: ws).length, char_count := txt.length,
      reading_speed_cps := (txt.length : ℚ) / (e - w.start),
      break_reason := g.2 }

/-- Modelled from the spec: the full engine, one cue per group. -/
def analyze (cfg : SegConfig) (words : List WordTiming) :
    List SubtitleSegment :=
  (analyze_words cfg words).map mkSubtitleSegment

lemma analyzeAux_nil (cfg : SegConfig) (acc : List WordTiming) :
    analyzeAux cfg [] acc =
      if acc.isEmpty then [] else [(acc, .end_of_input)] := rfl

/-- One-step unfolding of the scan at the last word (no lookahead rules
apply). -/
lemma analyzeAux_last (cfg : SegConfig) (w : WordTiming)
    (acc : List WordTiming) :
    analyzeAux cfg [w] acc =
      if cfg.max_segment_duration ≤ groupDuration (acc ++ [w]) then
        (acc ++ [w], .duration_limit) :: analyzeAux cfg [] []
      else if w.is_sentence_ending = true ∧
          cfg.min_segment_duration ≤ groupDuration (acc ++ [w]) then
        (acc ++ [w], .sentence_end) :: analyzeAux cfg [] []
      else analyzeAux cfg [] (acc ++ [w]) := rfl

/-- One-step unfolding of the scan with a lookahead word available. -/
lemma analyzeAux_step (cfg : SegConfig) (w next : WordTiming)
    (rest' acc : List WordTiming) :
    analyzeAux cfg (w :: next :: rest') acc =
      if cfg.max_segment_duration ≤ groupDuration (acc ++ [w]) then
        (acc ++ [w], .duration_limit) :: analyzeAux cfg (next :: rest') []
      else if w.is_sentence_ending = true ∧
          cfg.min_segment_duration ≤ groupDuration (acc ++ [w]) then
        (acc ++ [w], .sentence_end) :: analyzeAux cfg (next :: rest') []
      else if cfg.max_reading_speed_cps < projectedSpeed (acc ++ [w]) next ∧
          cfg.min_segment_duration ≤ groupDuration (acc ++ [w]) then
        (acc ++ [w], .reading_speed_limit) :: analyzeAux cfg (next :: rest') []
      else if cfg.natural_pause_threshold < next.start - w.«end» ∧
          cfg.min_segment_duration ≤ groupDuration (acc ++ [w]) then
        (acc ++ [w], .natural_pause) :: analyzeAux cfg (next :: rest') []
      else analyzeAux cfg (next :: rest') (acc ++ [w]) := rfl

/-- Concatenating the groups reproduces every input word exactly once. -/
lemma analyzeAux_join (cfg : SegConfig) (ws : List WordTiming) :
    ∀ acc, ((analyzeAux cfg ws acc).map Prod.fst).join = acc ++ ws := by
  induction ws with
  | nil =>
    intro acc
    cases acc with
    | nil => simp [analyzeAux_nil]
    | cons a as => simp [analyzeAux_nil]
  | cons w rest ih =>
    intro acc
    cases rest with
    | nil =>
      rw [analyzeAux_last]
      split_ifs <;> simp [ih, List.append_assoc]
    | cons next rest' =>
      rw [analyzeAux_step]
      split_ifs <;> simp [ih, List.append_assoc]

/-- Every non-final group reaches the minimum duration: rule 1 closes at or
above `max > min` and rules 2–4 each check the minimum explicitly; only the
final flush is exempt. -/
lemma analyzeAux_dropLast_min (cfg : SegConfig)
    (hcfg : cfg.min_segment_duration < cfg.max_segment_duration)
    (ws : List WordTiming) :
    ∀ acc, ∀ g ∈ (analyzeAux cfg ws acc).dropLast,
      cfg.min_segment_duration ≤ groupDuration g.1 := by
  have hne : ∀ (todo : List WordTiming) (acc : List WordTiming),
      todo ≠ [] → analyzeAux cfg todo acc ≠ [] := by
    intro todo acc htodo h0
    have hj := analyzeAux_join cfg todo acc
    rw [h0] at hj
    simp only [List.map_nil, List.join_nil] at hj
    exact htodo (by
      have := congrArg List.length hj
      simp only [List.length_nil, List.length_append] at this
      exact List.length_eq_zero.mp (by omega))
  induction ws with
  | nil =>
    intro acc g hg
    rw [analyzeAux_nil] at hg
    split_ifs at hg <;> simp at hg
  | cons w rest ih =>
    intro acc g hg
    cases rest with
    | nil =>
      rw [analyzeAux_last] at hg
      split_ifs at hg with h1 h2
      · rw [analyzeAux_nil] at hg
        simp at hg
      · rw [analyzeAux_nil] at hg
        simp at hg
      · exact ih (acc ++ [w]) g hg
    | cons next rest' =>
      rw [analyzeAux_step] at hg
      have hrec : analyzeAux cfg (next :: rest') [] ≠ [] :=
        hne (next :: rest') [] (List.cons_ne_nil next rest')
      split_ifs at hg with h1 h2 h3 h4
      · rw [List.dropLast_cons_of_ne_nil hrec] at hg
        rcases List.mem_cons.mp hg with rfl | hgr
        · exact le_trans (le_of_lt hcfg) h1
        · exact ih [] g hgr
      · rw [List.dropLast_cons_of_ne_nil hrec] at hg
        rcases List.mem_cons.mp hg with rfl | hgr
        · exact h2.2
        · exact ih [] g hgr
      · rw [List.dropLast_cons_of_ne_nil hrec] at hg
        rcases List.mem_cons.mp hg with rfl | hgr
        · exact h3.2
        · exact ih [] g hgr
      · rw [List.dropLast_cons_of_ne_nil hrec] at hg
        rcases List.mem_cons.mp hg with rfl | hgr
        · exact h4.2
        · exact ih [] g hgr
      · exact ih (acc ++ [w]) g hg

/-- The scan closes a segment as soon as the accumulated duration reaches
the maximum, so a flushed (`EndOfInput`) segment is below the maximum, and
any other segment was below the maximum before its last word was added. -/
lemma analyzeAux_max_bound (cfg : SegConfig)
    (hmax : 0 < cfg.max_segment_duration) (ws : List WordTiming) :
    ∀ acc, (acc ≠ [] → groupDuration acc < cfg.max_segment_duration) →
      ∀ g ∈ analyzeAux cfg ws acc,
        (g.2 = .end_of_input → groupDuration g.1 < cfg.max_segment_duration) ∧
        (¬ g.2 = .end_of_input →
          groupDuration g.1.dropLast < cfg.max_segment_duration) := by
  induction ws with
  | nil =>
    intro acc hacc g hg
    rw [analyzeAux_nil] at hg
    split_ifs at hg with he
    · simp at hg
    · rw [List.mem_singleton] at hg
      subst hg
      have hane : acc ≠ [] := by
        intro h0
        exact he (by rw [h0]; rfl)
      exact ⟨fun _ => hacc hane, fun hne => absurd rfl hne⟩
  | cons w rest ih =>
    intro acc hacc g hg
    have hclosed : ∀ r : BreakReason, ¬ r = .end_of_input →
        g = (acc ++ [w], r) →
        (g.2 = .end_of_input → groupDuration g.1 < cfg.max_segment_duration) ∧
        (¬ g.2 = .end_of_input →
          groupDuration g.1.dropLast < cfg.max_segment_duration) := by
      rintro r hr rfl
      refine ⟨fun h => absurd h hr, fun _ => ?_⟩
      simp only
      rw [List.dropLast_concat]
      by_cases hac : acc = []
      · subst hac
        simpa [groupDuration] using hmax
      · exact hacc hac
    cases rest with
    | nil =>
      rw [analyzeAux_last] at hg
      split_ifs at hg with h1 h2
      · rcases List.mem_cons.mp hg with rfl | hgr
        · exact hclosed _ (by decide) rfl
        · exact ih [] (fun h => absurd rfl h) g hgr
      · rcases List.mem_cons.mp hg with rfl | hgr
        · exact hclosed _ (by decide) rfl
        · exact ih [] (fun h => absurd rfl h) g hgr
      · exact ih (acc ++ [w]) (fun _ => not_le.mp h1) g hg
    | cons next rest' =>
      rw [analyzeAux_step] at hg
      split_ifs at hg with h1 h2 h3 h4
      · rcases List.mem_cons.mp hg with rfl | hgr
        · exact hclosed _ (by decide) rfl
        · exact ih [] (fun h => absurd rfl h) g hgr
      · rcases List.mem_cons.mp hg with rfl | hgr
        · exact hclosed _ (by decide) rfl
        · exact ih [] (fun h => absurd rfl h) g hgr
      · rcases List.mem_cons.mp hg with rfl | hgr
        · exact hclosed _ (by decide) rfl
        · exact ih [] (fun h => absurd rfl h) g hgr
      · rcases List.mem_cons.mp hg with rfl | hgr
        · exact hclosed _ (by decide) rfl
        · exact ih [] (fun h => absurd rfl h) g hgr
      · exact ih (acc ++ [w]) (fun _ => not_le.mp h1) g hg

/-- C6 (amended): for a non-empty word sequence and valid configuration the
spec-modelled engine (a) partitions the input — concatenating all groups
(hence all segment texts) reproduces every input word exactly once in
order; (b) produces at least one segment; (c) gives every non-final segment
duration ≥ `min_segment_duration` (the final `EndOfInput` flush is exempt);
and (d) — in place of the claim's false "every segment's duration ≤
`max_segment_duration`" — the final flushed segment is strictly below the
maximum, and every other segment was strictly below the maximum before its
last word was added (a single word can overshoot the maximum, upon which
the segment closes immediately with `DurationLimit`). -/
theorem analyze_words_segmentation (cfg : SegConfig) (words : List WordTiming)
    (hwords : words ≠ [])
    (hcfg : cfg.min_segment_duration < cfg.max_segment_duration)
    (hmin : 0 ≤ cfg.min_segment_duration) :
    ((analyze_words cfg words).map Prod.fst).join = words ∧
    analyze_words cfg words ≠ [] ∧
    (∀ g ∈ (analyze_words cfg words).dropLast,
      cfg.min_segment_duration ≤ groupDuration g.1) ∧
    (∀ g ∈ analyze_words cfg words,
      (g.2 = .end_of_input → groupDuration g.1 < cfg.max_segment_duration) ∧
      (¬ g.2 = .end_of_input →
        groupDuration g.1.dropLast < cfg.max_segment_duration)) ∧
    (analyze cfg words).map SubtitleSegment.text =
      (analyze_words cfg words).map fun g => renderText g.1 := by
  have hjoin := analyzeAux_join cfg words []
  refine ⟨by simpa using hjoin, ?_, ?_, ?_, ?_⟩
  · intro h0
    rw [show analyzeAux cfg words [] = [] from h0] at hjoin
    simp only [List.map_nil, List.join_nil, List.nil_append] at hjoin
    exact hwords hjoin.symm
  · exact fun g hg => analyzeAux_dropLast_min cfg hcfg words [] g hg
  · exact fun g hg => analyzeAux_max_bound cfg (lt_of_le_of_lt hmin hcfg)
      words [] (fun h => absurd rfl h) g hg
  · unfold analyze
    rw [List.map_map]
    refine List.map_congr_left fun g _ => ?_
    obtain ⟨l, r⟩ := g
    cases l with
    | nil => rfl
    | cons a as => rfl

/-- Counterexample to C6 as stated: a single word spanning 10 seconds with
`max_segment_duration = 6` yields one segment of duration 10 > 6 (the
engine can only close a segment after adding the word that overshot). -/
theorem analyze_words_segment_exceeds_max :
    analyze_words
        { max_segment_duration := 6, min_segment_duration := 1,
          max_reading_speed_cps := 17, min_reading_speed_cps := 2,
          natural_pause_threshold := 3 }
        [{ word := "Hello", start := 0, «end» := 10 }] =
      [([{ word := "Hello", start := 0, «end» := 10 }],
        BreakReason.duration_limit)] ∧
    (6 : ℚ) < groupDuration [{ word := "Hello", start := 0, «end» := 10 }] := by
  constructor
  · show analyzeAux _ [_] [] = _
    rw [analyzeAux_last]
    rw [if_pos (by norm_num [groupDuration, List.getLast_singleton])]
    rw [analyzeAux_nil]
    rfl
  · norm_num [groupDuration, List.getLast_singleton]

/-- Witness for the amended C6 at a concrete input: a single short word
under a valid configuration. -/
theorem analyze_words_segmentation_witness :
    ((analyze_words
        { max_segment_duration := 6, min_segment_duration := 1,
          max_reading_speed_cps := 17, min_reading_speed_cps := 2,
          natural_pause_threshold := 3 }
        [{ word := "Hi", start := 0, «end» := 2 }]).map Prod.fst).join =
      [{ word := "Hi", start := 0, «end» := 2 }] :=
  (analyze_words_segmentation
    { max_segment_duration := 6, min_segment_duration := 1,
      max_reading_speed_cps := 17, min_reading_speed_cps := 2,
      natural_pause_threshold := 3 }
    [{ word := "Hi", start := 0, «end» := 2 }]
    (by simp) (by norm_num) (by norm_num)).1

end CaptionAlchemy
